import Mathlib

/-!
Shallow embedding of the hemodynamic regressor module
(nistats/hemodynamic_models.py) and proofs about it.

Modelling conventions:
* Python/NumPy floating-point values are modelled with exact rationals.
* Python exceptions are modelled with the Except monad; the error strings name
  the Python exception that would be raised at the corresponding point.
* scipy.stats.gamma.pdf is a total function on floats that never raises and
  whose (irrational) values none of the verified properties depend on; it is
  passed as an uninterpreted parameter, applied positionally exactly as in the
  source.
* numpy.linalg.pinv computes the Moore-Penrose pseudoinverse, which is unique;
  it is passed as a parameter, and theorems that need its defining properties
  assume the Penrose identities for the matrices at which it is applied.
-/

namespace Nistats

/-- Python int() applied to a real number: truncation toward zero. -/
def pyInt (q : ℚ) : ℤ :=
  if q < 0 then -Int.floor (-q) else Int.floor q

/-- Embedding of numpy.linspace as used by this module (the sample count is
coerced with int(); a count of at most zero yields an empty array, a count of
one yields only the start point; for larger counts the samples are
start + step * i with the final one assigned the stop value). -/
def linspace (start stop : ℚ) (num : ℤ) : List ℚ :=
  if num ≤ 0 then []
  else if num = 1 then [start]
  else
    (List.range num.toNat).map (fun i =>
      if i = num.toNat - 1 then stop
      else start + (stop - start) / ((num : ℚ) - 1) * (i : ℚ))

/-- Embedding of ndarray.min as a fold (callers guard against empty input,
where NumPy raises). -/
def listMin : List ℚ → ℚ
  | [] => 0
  | x :: xs => xs.foldl min x

/-- Embedding of ndarray.max as a fold (callers guard against empty input,
where NumPy raises). -/
def listMax : List ℚ → ℚ
  | [] => 0
  | x :: xs => xs.foldl max x

/-- Embedding of numpy.searchsorted with side left on an ascending array: the
first index whose element is not below the query (equivalently, the left
insertion point). -/
def searchsorted (grid : List ℚ) (v : ℚ) : ℕ :=
  match grid with
  | [] => 0
  | x :: xs => if v ≤ x then 0 else searchsorted xs v + 1

/-- One experimental event: exp_condition is a triple of equal-length arrays
(onsets, durations, amplitudes); index i of those arrays is one event. -/
structure Event where
  onset : ℚ
  duration : ℚ
  amplitude : ℚ
deriving DecidableEq

/-- Onset grid index of an event:
t_onset = minimum(searchsorted(hr_frame_times, onset), tmax - 1). -/
def tOnsetIdx (grid : List ℚ) (onset : ℚ) : ℕ :=
  min (searchsorted grid onset) (grid.length - 1)

/-- Offset grid index before the zero-duration bump:
minimum(searchsorted(hr_frame_times, onset + duration), tmax - 1). -/
def tOffsetRawIdx (grid : List ℚ) (onset duration : ℚ) : ℕ :=
  min (searchsorted grid (onset + duration)) (grid.length - 1)

/-- Offset grid index after the bump loop: when the raw offset index equals
the onset index and is not the last grid index, it is incremented by one. -/
def tOffsetIdx (grid : List ℚ) (onset duration : ℚ) : ℕ :=
  if tOffsetRawIdx grid onset duration < grid.length - 1 ∧
      tOffsetRawIdx grid onset duration = tOnsetIdx grid onset
  then tOffsetRawIdx grid onset duration + 1
  else tOffsetRawIdx grid onset duration

/-- Embedding of the NumPy fancy-indexed in-place update r[idx] op= vals:
all reads gather from the array as it was before the statement, then the
updated values are scattered in index order, so with repeated indices the
last write wins and earlier contributions at the same index are lost. -/
def scatterOp (op : ℚ → ℚ → ℚ) (r : List ℚ) (ivs : List (ℕ × ℚ)) : List ℚ :=
  let temp := ivs.map (fun iv => op (r.getD iv.1 0) iv.2)
  (ivs.zip temp).foldl (fun acc p => acc.set p.1.1 p.2) r

/-- Embedding of numpy.cumsum on a one-dimensional array. -/
def cumsum (l : List ℚ) : List ℚ :=
  (l.scanl (· + ·) 0).tail

/-- Value of the expression computing n_hr, the (real-valued) high-resolution
sample count, in _sample_condition. -/
def nHrQ (ft : List ℚ) (os : ℤ) (minOnset : ℚ) : ℚ :=
  ((ft.length : ℚ) - 1) / (listMax ft - listMin ft) *
      (listMax ft * (1 + 1 / ((ft.length : ℚ) - 1)) - listMin ft - minOnset) *
      (os : ℤ) + 1

/-- High-resolution frame times:
linspace(frame_times.min() + min_onset, frame_times.max() * (1 + 1/(n-1)), n_hr). -/
def hrFrameTimes (ft : List ℚ) (os : ℤ) (minOnset : ℚ) : List ℚ :=
  linspace (listMin ft + minOnset)
    (listMax ft * (1 + 1 / ((ft.length : ℚ) - 1)))
    (pyInt (nHrQ ft os minOnset))

/-- Embedding of _sample_condition.  Failure points, in program order:
frame_times.max() on an empty array raises; 1./(n-1) raises for a single
frame time; a constant frame_times array makes n_hr infinite or nan, which
raises inside linspace at int(num); fancy indexing with the clamped index
tmax - 1 = -1 raises on an empty grid when there is at least one event.
The early-onset UserWarning has no effect on the result and is not modelled. -/
def sampleCondition (events : List Event) (ft : List ℚ) (os : ℤ) (minOnset : ℚ) :
    Except String (List ℚ × List ℚ) :=
  if ft.length = 0 then .error ("ValueError: zero-size array reduction")
  else if ft.length = 1 then .error ("ZeroDivisionError")
  else if listMax ft = listMin ft then .error ("OverflowError at int(n_hr)")
  else
    let grid := hrFrameTimes ft os minOnset
    if grid.length = 0 ∧ events ≠ [] then .error ("IndexError")
    else
      let vals := events.map (fun e => e.amplitude)
      let tOn := events.map (fun e => tOnsetIdx grid e.onset)
      let tOff := events.map (fun e => tOffsetIdx grid e.onset e.duration)
      let reg0 : List ℚ := List.replicate grid.length 0
      let reg1 := scatterOp (· + ·) reg0 (tOn.zip vals)
      let reg2 := scatterOp (· - ·) reg1 (tOff.zip vals)
      .ok (cumsum reg2, grid)

/-- Monadic map over a list in the Except monad, as a Python list
comprehension or loop that can raise at each element. -/
def mapME {α β : Type} (f : α → Except String β) : List α → Except String (List β)
  | [] => .ok []
  | x :: xs =>
    match f x with
    | .error e => .error e
    | .ok y =>
      match mapME f xs with
      | .error e => .error e
      | .ok ys => .ok (y :: ys)

/-- Embedding of _gamma_difference_hrf.  The first argument models
scipy.stats.gamma.pdf applied pointwise, with the same (positional) argument
order as in the source; division of the kernel by its sum never raises in
NumPy, so a zero sum is mapped through rational division (whose values no
theorem below depends on).  Failure points: tr / oversampling raises for a
zero oversampling, and float(time_length) / dt raises for dt = 0. -/
def gammaDifferenceHrf (gpdf : ℚ → ℚ → ℚ → ℚ) (tr : ℚ) (os : ℤ)
    (timeLength onset delay undershoot dispersion uDispersion wRatio : ℚ) :
    Except String (List ℚ) :=
  if os = 0 then .error ("ZeroDivisionError: tr / oversampling")
  else
    let dt := tr / (os : ℚ)
    if dt = 0 then .error ("ZeroDivisionError: time_length / dt")
    else
      let ts := (linspace 0 timeLength (pyInt (timeLength / dt))).map
        (fun t => t - onset / dt)
      let hrf := ts.map (fun t =>
        gpdf t (delay / dispersion) (dt / dispersion) -
          wRatio * gpdf t (undershoot / uDispersion) (dt / uDispersion))
      .ok (hrf.map (fun x => x / hrf.sum))

/-- Embedding of spm_hrf. -/
def spmHrf (gpdf : ℚ → ℚ → ℚ → ℚ) (tr : ℚ) (os : ℤ)
    (timeLength onset : ℚ) : Except String (List ℚ) :=
  gammaDifferenceHrf gpdf tr os timeLength onset 6 16 1 1 (167 / 1000)

/-- Embedding of glover_hrf. -/
def gloverHrf (gpdf : ℚ → ℚ → ℚ → ℚ) (tr : ℚ) (os : ℤ)
    (timeLength onset : ℚ) : Except String (List ℚ) :=
  gammaDifferenceHrf gpdf tr os timeLength onset 6 12 (9 / 10) (9 / 10) (35 / 100)

/-- Embedding of spm_time_derivative: (spm_hrf(onset + 0.1) - spm_hrf(onset)) / 0.1. -/
def spmTimeDerivative (gpdf : ℚ → ℚ → ℚ → ℚ) (tr : ℚ) (os : ℤ)
    (timeLength onset : ℚ) : Except String (List ℚ) :=
  match spmHrf gpdf tr os timeLength (onset + 1 / 10) with
  | .error e => .error e
  | .ok a =>
    match spmHrf gpdf tr os timeLength onset with
    | .error e => .error e
    | .ok b => .ok (List.zipWith (fun x y => 10 * (x - y)) a b)

/-- Embedding of glover_time_derivative. -/
def gloverTimeDerivative (gpdf : ℚ → ℚ → ℚ → ℚ) (tr : ℚ) (os : ℤ)
    (timeLength onset : ℚ) : Except String (List ℚ) :=
  match gloverHrf gpdf tr os timeLength (onset + 1 / 10) with
  | .error e => .error e
  | .ok a =>
    match gloverHrf gpdf tr os timeLength onset with
    | .error e => .error e
    | .ok b => .ok (List.zipWith (fun x y => 10 * (x - y)) a b)

/-- Embedding of spm_dispersion_derivative:
(gamma_difference_hrf(dispersion = 1.01) - spm_hrf()) / 0.01. -/
def spmDispersionDerivative (gpdf : ℚ → ℚ → ℚ → ℚ) (tr : ℚ) (os : ℤ)
    (timeLength onset : ℚ) : Except String (List ℚ) :=
  match gammaDifferenceHrf gpdf tr os timeLength onset 6 16 (1 + 1 / 100) 1 (167 / 1000) with
  | .error e => .error e
  | .ok a =>
    match spmHrf gpdf tr os timeLength onset with
    | .error e => .error e
    | .ok b => .ok (List.zipWith (fun x y => 100 * (x - y)) a b)

/-- Embedding of numpy.zeros, which raises on a negative dimension. -/
def npZeros (k : ℤ) : Except String (List ℚ) :=
  if k < 0 then .error ("ValueError: negative dimensions are not allowed")
  else .ok (List.replicate k.toNat 0)

/-- Embedding of numpy.ones, which raises on a negative dimension. -/
def npOnes (k : ℤ) : Except String (List ℚ) :=
  if k < 0 then .error ("ValueError: negative dimensions are not allowed")
  else .ok (List.replicate k.toNat 1)

/-- One fir basis kernel: np.hstack((np.zeros(f * oversampling),
np.ones(oversampling))), a boxcar of one oversampling width shifted by the
delay. -/
def firKernel (os : ℤ) (f : ℤ) : Except String (List ℚ) :=
  match npZeros (f * os) with
  | .error e => .error e
  | .ok z =>
    match npOnes os with
    | .error e => .error e
    | .ok o => .ok (z ++ o)

/-- Embedding of _hrf_kernel: maps the model identifier to the ordered kernel
list; the fir variant builds one boxcar per delay (and iterating a missing
delay list raises); any other identifier raises ValueError. -/
def hrfKernel (gpdf : ℚ → ℚ → ℚ → ℚ) (model : String) (tr : ℚ) (os : ℤ)
    (firDelays : Option (List ℤ)) : Except String (List (List ℚ)) :=
  if model = "spm" then
    match spmHrf gpdf tr os 32 0 with
    | .error e => .error e
    | .ok a => .ok [a]
  else if model = "spm_time" then
    match spmHrf gpdf tr os 32 0 with
    | .error e => .error e
    | .ok a =>
      match spmTimeDerivative gpdf tr os 32 0 with
      | .error e => .error e
      | .ok b => .ok [a, b]
  else if model = "spm_time_dispersion" then
    match spmHrf gpdf tr os 32 0 with
    | .error e => .error e
    | .ok a =>
      match spmTimeDerivative gpdf tr os 32 0 with
      | .error e => .error e
      | .ok b =>
        match spmDispersionDerivative gpdf tr os 32 0 with
        | .error e => .error e
        | .ok c => .ok [a, b, c]
  else if model = "canonical" then
    match gloverHrf gpdf tr os 32 0 with
    | .error e => .error e
    | .ok a => .ok [a]
  else if model = "canonical with derivative" then
    match gloverHrf gpdf tr os 32 0 with
    | .error e => .error e
    | .ok a =>
      match gloverTimeDerivative gpdf tr os 32 0 with
      | .error e => .error e
      | .ok b => .ok [a, b]
  else if model = "fir" then
    match firDelays with
    | none => .error ("TypeError: NoneType is not iterable")
    | some ds => mapME (firKernel os) ds
  else .error ("Unknown hrf model")

/-- Embedding of numpy.convolve in full mode; it raises when either input is
empty, and otherwise the output has length len(a) + len(v) - 1 with entries
sum of a[j] * v[k - j]. -/
def convolve (a v : List ℚ) : Except String (List ℚ) :=
  if a.isEmpty then .error ("ValueError: a cannot be empty")
  else if v.isEmpty then .error ("ValueError: v cannot be empty")
  else .ok ((List.range (a.length + v.length - 1)).map (fun k =>
    ((List.range (k + 1)).map (fun j => a.getD j 0 * v.getD (k - j) 0)).sum))

/-- Stable insertion used to sort the interpolation abscissae. -/
def insertByFst (x : ℚ × ℚ) : List (ℚ × ℚ) → List (ℚ × ℚ)
  | [] => [x]
  | y :: ys => if x.1 < y.1 then x :: y :: ys else y :: insertByFst x ys

/-- Sort point pairs by abscissa (scipy.interpolate.interp1d with the default
assume_sorted=False sorts x and reorders y accordingly). -/
def sortPairs (l : List (ℚ × ℚ)) : List (ℚ × ℚ) :=
  l.foldr insertByFst []

/-- Piecewise-linear interpolation through an ascending list of points with
bounds_error=True: queries outside the covered interval raise. -/
def interpAt : List (ℚ × ℚ) → ℚ → Except String ℚ
  | [], _ => .error ("ValueError: empty interpolation data")
  | (x0, y0) :: rest, t =>
      if t < x0 then .error ("ValueError: below interpolation range")
      else
        match rest with
        | [] => if t ≤ x0 then .ok y0 else .error ("ValueError: above interpolation range")
        | (x1, y1) :: rest2 =>
            if t ≤ x1 then .ok (y0 + (y1 - y0) * (t - x0) / (x1 - x0))
            else interpAt ((x1, y1) :: rest2) t

/-- Embedding of _resample_regressor via scipy.interpolate.interp1d: the
constructor rejects data whose length along the interpolation axis differs
from len(x) (an empty row stack has axis length 0) and fewer than 2 sample
points; interp1d sorts the sample points, and evaluation raises outside
their range.  The result is transposed by the caller, so each interpolated
row below is one column of the final regressor matrix. -/
def resampleRegressor (hrTimes : List ℚ) (rows : List (List ℚ)) (ft : List ℚ) :
    Except String (List (List ℚ)) :=
  if rows.isEmpty ∧ hrTimes.length ≠ 0 then
    .error ("ValueError: x and y arrays must be equal in length")
  else if hrTimes.length < 2 then
    .error ("ValueError: x and y arrays must have at least 2 entries")
  else
    mapME (fun row => mapME (interpAt (sortPairs (hrTimes.zip row))) ft) rows

/-- First i columns of a matrix, the value of X[:, :i]. -/
def leadCols {n p : ℕ} (M : Matrix (Fin n) (Fin p) ℚ) (i : ℕ) (hi : i ≤ p) :
    Matrix (Fin n) (Fin i) ℚ :=
  fun r c => M r ⟨c.val, Nat.lt_of_lt_of_le c.isLt hi⟩

/-- One iteration of the _orthogonalize loop:
X[:, i] -= np.dot(X[:, i], np.dot(X[:, :i], pinv(X[:, :i]))). -/
def orthoStep {n p : ℕ}
    (pinv : (i : ℕ) → Matrix (Fin n) (Fin i) ℚ → Matrix (Fin i) (Fin n) ℚ)
    (X : Matrix (Fin n) (Fin p) ℚ) (i : ℕ) : Matrix (Fin n) (Fin p) ℚ :=
  if h : i < p then
    fun r c =>
      if c = ⟨i, h⟩ then
        X r c - Matrix.vecMul (fun r' => X r' ⟨i, h⟩)
          (leadCols X i (Nat.le_of_lt h) * pinv i (leadCols X i (Nat.le_of_lt h))) r
      else X r c
  else X

/-- State of the _orthogonalize loop after the iterations for columns 1..k. -/
def orthoUpto {n p : ℕ}
    (pinv : (i : ℕ) → Matrix (Fin n) (Fin i) ℚ → Matrix (Fin i) (Fin n) ℚ)
    (X : Matrix (Fin n) (Fin p) ℚ) (k : ℕ) : Matrix (Fin n) (Fin p) ℚ :=
  (List.range' 1 k).foldl (orthoStep pinv) X

/-- Embedding of _orthogonalize: a matrix whose size equals its row count
(a single column, or no rows) is returned unchanged; otherwise each column
i >= 1, in increasing order, has the pinv-based projection onto the earlier
(already updated) columns subtracted from it, in place. -/
def orthogonalize {n p : ℕ}
    (pinv : (i : ℕ) → Matrix (Fin n) (Fin i) ℚ → Matrix (Fin i) (Fin n) ℚ)
    (X : Matrix (Fin n) (Fin p) ℚ) : Matrix (Fin n) (Fin p) ℚ :=
  if n * p = n then X else orthoUpto pinv X (p - 1)

/-- Application of _orthogonalize to a regressor matrix given as its list of
columns, each of length m. -/
def orthoCols (m : ℕ)
    (pinv : (i : ℕ) → Matrix (Fin m) (Fin i) ℚ → Matrix (Fin i) (Fin m) ℚ)
    (cols : List (List ℚ)) : List (List ℚ) :=
  let X : Matrix (Fin m) (Fin cols.length) ℚ := fun r c => (cols.get c).getD r.val 0
  let Y := orthogonalize pinv X
  (List.finRange cols.length).map (fun c => List.ofFn (fun r : Fin m => Y r c))

/-- Embedding of _regressor_names.  A missing delay list for the fir model
raises when iterated; an identifier not matched by any branch falls through
the chain and the function returns None. -/
def regressorNames (conName model : String) (firDelays : Option (List ℤ)) :
    Except String (Option (List String)) :=
  if model = "canonical" then .ok (some [conName])
  else if model = "canonical with derivative" then
    .ok (some [conName, conName ++ "_derivative"])
  else if model = "spm" then .ok (some [conName])
  else if model = "spm_time" then .ok (some [conName, conName ++ "_derivative"])
  else if model = "spm_time_dispersion" then
    .ok (some [conName, conName ++ "_derivative", conName ++ "_dispersion"])
  else if model = "fir" then
    match firDelays with
    | none => .error ("TypeError: NoneType is not iterable")
    | some ds => .ok (some (ds.map (fun i => conName ++ "_delay_" ++ toString i)))
  else .ok none

/-- One convolution step of compute_regressor: np.convolve(hr_regressor, h)
truncated to the high-resolution regressor's length. -/
def convTrunc (hrReg : List ℚ) (h : List ℚ) : Except String (List ℚ) :=
  match convolve hrReg h with
  | .error e => .error e
  | .ok c => .ok (c.take hrReg.length)

/-- Embedding of compute_regressor.  tr = frame_times.max() / (size - 1)
raises for fewer than two frame times; then the high-resolution regressor is
built, the kernels are selected, each kernel is convolved with the regressor
and truncated to its length, the stack is resampled at the frame times
(its transpose makes each resampled row one column), non-fir models are
orthogonalized in place, and the names are generated last. -/
def computeRegressor (gpdf : ℚ → ℚ → ℚ → ℚ)
    (pinv : (m i : ℕ) → Matrix (Fin m) (Fin i) ℚ → Matrix (Fin i) (Fin m) ℚ)
    (events : List Event) (model : String) (ft : List ℚ) (conId : String)
    (os : ℤ) (firDelays : Option (List ℤ)) (minOnset : ℚ) :
    Except String (List (List ℚ) × Option (List String)) :=
  if ft.length = 0 then .error ("ValueError: zero-size array reduction")
  else if ft.length = 1 then .error ("ZeroDivisionError: size - 1 is zero")
  else
    match sampleCondition events ft os minOnset with
    | .error e => .error e
    | .ok (hrReg, hrTimes) =>
      match hrfKernel gpdf model (listMax ft / ((ft.length : ℚ) - 1)) os firDelays with
      | .error e => .error e
      | .ok hk =>
        match mapME (convTrunc hrReg) hk with
        | .error e => .error e
        | .ok convReg =>
          match resampleRegressor hrTimes convReg ft with
          | .error e => .error e
          | .ok cols =>
            match regressorNames conId model firDelays with
            | .error e => .error e
            | .ok names =>
              .ok ((if model ≠ "fir" then
                orthoCols ft.length (pinv ft.length) cols else cols), names)

/-- Concrete stand-in for gamma.pdf used by closed evaluations (no verified
property depends on the kernel sample values). -/
def gpdf0 : ℚ → ℚ → ℚ → ℚ := fun _ _ _ => 0

/-- Concrete stand-in for numpy.linalg.pinv used by closed evaluations on
single-column regressor stacks, where _orthogonalize never calls pinv. -/
def pinv0 : (m i : ℕ) → Matrix (Fin m) (Fin i) ℚ → Matrix (Fin i) (Fin m) ℚ :=
  fun _ _ _ => 0

/-- Specification-side definition, following the spec's words for comparison
with the code: the sum of the amplitudes of the events active at grid index
k, an event being active from its onset index (inclusive) to its offset
index (exclusive). -/
def activeAmplitudeSum (events : List Event) (grid : List ℚ) (k : ℕ) : ℚ :=
  ((events.filter (fun e =>
      decide (tOnsetIdx grid e.onset ≤ k ∧ k < tOffsetIdx grid e.onset e.duration))).map
    (fun e => e.amplitude)).sum

/-! Theorems about the claims. -/

/-- C7: for every event parameters and every nonempty high-resolution grid,
the onset index, the raw offset index and the bumped offset index computed
by the event sampler all lie within [0, grid length - 1]; indexing never
goes out of bounds, whatever the onset and duration. -/
theorem C7_indices_within_bounds (grid : List ℚ) (onset duration : ℚ)
    (hg : 1 ≤ grid.length) :
    tOnsetIdx grid onset < grid.length ∧
    tOffsetRawIdx grid onset duration < grid.length ∧
    tOffsetIdx grid onset duration < grid.length := by
  have hlt : grid.length - 1 < grid.length := Nat.sub_lt hg Nat.one_pos
  refine ⟨Nat.lt_of_le_of_lt (Nat.min_le_right _ _) hlt,
    Nat.lt_of_le_of_lt (Nat.min_le_right _ _) hlt, ?_⟩
  unfold tOffsetIdx
  split
  · next hb => exact Nat.lt_of_le_of_lt (Nat.succ_le_of_lt hb.1) hlt
  · exact Nat.lt_of_le_of_lt (Nat.min_le_right _ _) hlt

/-- C7 witness: the bounds hold on a concrete grid and event. -/
theorem C7_witness :
    1 ≤ ([0] : List ℚ).length ∧
    (tOnsetIdx [0] 0 < ([0] : List ℚ).length ∧
      tOffsetRawIdx [0] 0 0 < ([0] : List ℚ).length ∧
      tOffsetIdx [0] 0 0 < ([0] : List ℚ).length) :=
  ⟨by decide, C7_indices_within_bounds [0] 0 0 (by decide)⟩

/-- C4: when an event's raw offset index equals its onset index, the offset
index is bumped by one exactly when that shared index is not the last grid
index, so that onset and offset indices differ; at the last grid index no
bump is applied. -/
theorem C4_zero_duration_bump (grid : List ℚ) (onset duration : ℚ)
    (_hg : 1 ≤ grid.length)
    (heq : tOffsetRawIdx grid onset duration = tOnsetIdx grid onset) :
    (tOnsetIdx grid onset < grid.length - 1 →
      tOffsetIdx grid onset duration = tOnsetIdx grid onset + 1 ∧
      tOffsetIdx grid onset duration ≠ tOnsetIdx grid onset) ∧
    (tOnsetIdx grid onset = grid.length - 1 →
      tOffsetIdx grid onset duration = tOnsetIdx grid onset) := by
  constructor
  · intro hlt
    have hb : tOffsetIdx grid onset duration = tOffsetRawIdx grid onset duration + 1 := by
      unfold tOffsetIdx
      rw [if_pos ⟨heq ▸ hlt, heq⟩]
    rw [hb, heq]
    exact ⟨rfl, Nat.succ_ne_self _⟩
  · intro hlast
    have hb : tOffsetIdx grid onset duration = tOffsetRawIdx grid onset duration := by
      unfold tOffsetIdx
      rw [if_neg]
      intro hcon
      rw [heq, hlast] at hcon
      exact absurd hcon.1 (lt_irrefl _)
    rw [hb, heq]

/-- C4 witness: a zero-duration event away from the grid end is bumped. -/
theorem C4_witness :
    (1 ≤ ([0, 1, 2] : List ℚ).length ∧
      tOffsetRawIdx [0, 1, 2] 0 0 = tOnsetIdx [0, 1, 2] 0) ∧
    ((tOnsetIdx [0, 1, 2] 0 < ([0, 1, 2] : List ℚ).length - 1 →
        tOffsetIdx [0, 1, 2] 0 0 = tOnsetIdx [0, 1, 2] 0 + 1 ∧
        tOffsetIdx [0, 1, 2] 0 0 ≠ tOnsetIdx [0, 1, 2] 0) ∧
      (tOnsetIdx [0, 1, 2] 0 = ([0, 1, 2] : List ℚ).length - 1 →
        tOffsetIdx [0, 1, 2] 0 0 = tOnsetIdx [0, 1, 2] 0)) :=
  ⟨⟨by decide, by with_unfolding_all rfl⟩,
    C4_zero_duration_bump [0, 1, 2] 0 0 (by decide) (by with_unfolding_all rfl)⟩

/-- C3: at the failing input of two identical events (onset 0, duration 1,
amplitude 1) with frame times [0, 1], the code's dense regressor holds 1 at
grid index 0, while the sum of the amplitudes of the events active there is
2: the fancy-indexed += gathers before it scatters, so the duplicate onset
index loses one event's amplitude instead of accumulating it. -/
theorem C3_duplicate_onset_amplitude_lost :
    sampleCondition [⟨0, 1, 1⟩, ⟨0, 1, 1⟩] [0, 1] 1 0 =
      .ok ([1, 0, 0], [0, 1, 2]) ∧
    activeAmplitudeSum [⟨0, 1, 1⟩, ⟨0, 1, 1⟩] [0, 1, 2] 0 = 2 ∧
    ([1, 0, 0] : List ℚ).getD 0 0 ≠
      activeAmplitudeSum [⟨0, 1, 1⟩, ⟨0, 1, 1⟩] [0, 1, 2] 0 := by
  refine ⟨by with_unfolding_all rfl, by with_unfolding_all rfl,
    by with_unfolding_all decide⟩

/-- C10: for a model identifier that is none of the six supported ones, the
regressor-naming operation falls through its branch chain and returns no
name list at all, while the kernel selector raises the unsupported-model
error for the same identifier. -/
theorem C10_names_fall_through (conName model : String) (fd : Option (List ℤ))
    (gpdf : ℚ → ℚ → ℚ → ℚ) (tr : ℚ) (os : ℤ)
    (h1 : model ≠ "spm") (h2 : model ≠ "spm_time")
    (h3 : model ≠ "spm_time_dispersion") (h4 : model ≠ "canonical")
    (h5 : model ≠ "canonical with derivative") (h6 : model ≠ "fir") :
    regressorNames conName model fd = .ok none ∧
    hrfKernel gpdf model tr os fd = .error ("Unknown hrf model") := by
  constructor
  · unfold regressorNames
    rw [if_neg h4, if_neg h5, if_neg h1, if_neg h2, if_neg h3, if_neg h6]
  · unfold hrfKernel
    rw [if_neg h1, if_neg h2, if_neg h3, if_neg h4, if_neg h5, if_neg h6]

/-- C10 witness: the identifier "hrf" is unsupported. -/
theorem C10_witness :
    (("hrf" : String) ≠ "spm" ∧ ("hrf" : String) ≠ "spm_time" ∧
      ("hrf" : String) ≠ "spm_time_dispersion" ∧ ("hrf" : String) ≠ "canonical" ∧
      ("hrf" : String) ≠ "canonical with derivative" ∧ ("hrf" : String) ≠ "fir") ∧
    regressorNames "cond" "hrf" none = .ok none ∧
    hrfKernel gpdf0 "hrf" 1 16 none = .error ("Unknown hrf model") :=
  ⟨⟨by decide, by decide, by decide, by decide, by decide, by decide⟩,
    C10_names_fall_through "cond" "hrf" none gpdf0 1 16 (by decide) (by decide)
      (by decide) (by decide) (by decide) (by decide)⟩

/-- C2 counterexample: with frame times [0, 1], oversampling 1 and
min_onset 1/2 the linear formula has value 5/2 while the grid has 2 samples
(the count is the truncation of the formula, not the formula); and with
frame times [-3, -1], oversampling 1 and min_onset 0 the truncated count is
1, so the grid is the single point -3 and its last element is not
max(frame_times) * (1 + 1/(n-1)) = -2. -/
theorem C2_count_formula_counterexample :
    nHrQ [0, 1] 1 (1 / 2) = 5 / 2 ∧
    (hrFrameTimes [0, 1] 1 (1 / 2)).length = 2 ∧ ((2 : ℚ) ≠ 5 / 2) ∧
    hrFrameTimes [-3, -1] 1 0 = [-3] ∧
    listMax [-3, -1] * (1 + 1 / ((([-3, -1] : List ℚ).length : ℚ) - 1)) = -2 ∧
    ([-3] : List ℚ).getLast? = some (-3) ∧ ((-3 : ℚ) ≠ -2) := by
  refine ⟨by with_unfolding_all rfl, by with_unfolding_all rfl,
    by with_unfolding_all decide, by with_unfolding_all rfl,
    by with_unfolding_all rfl, rfl, by with_unfolding_all decide⟩

/-- Last sample of an evenly spaced grid: the affine formula at the final
index recovers the stop value when there are at least two samples. -/
theorem linspace_step_last (a b : ℚ) (num : ℤ) (h : 2 ≤ num) :
    a + (b - a) / ((num : ℚ) - 1) * ((num.toNat - 1 : ℕ) : ℚ) = b := by
  have hone : (1 : ℕ) ≤ num.toNat := by omega
  have hc : ((num.toNat : ℚ)) = ((num : ℚ)) := by
    exact_mod_cast congrArg (fun z : ℤ => (z : ℚ)) (Int.toNat_of_nonneg (by omega))
  have hcast : ((num.toNat - 1 : ℕ) : ℚ) = (num : ℚ) - 1 := by
    rw [Nat.cast_sub hone, hc]
    norm_num
  have hne : ((num : ℚ) - 1) ≠ 0 := by
    have : (2 : ℚ) ≤ (num : ℚ) := by exact_mod_cast h
    intro hz
    rw [sub_eq_zero] at hz
    rw [hz] at this
    norm_num at this
  rw [hcast, div_mul_cancel₀ _ hne]
  ring

/-- Length of a linspace with at least two samples. -/
theorem linspace_length (a b : ℚ) (num : ℤ) (h : 2 ≤ num) :
    (linspace a b num).length = num.toNat := by
  unfold linspace
  rw [if_neg (by omega), if_neg (by omega)]
  simp

/-- Every sample of a linspace with at least two samples fits the affine
formula start + (stop - start) / (num - 1) * index. -/
theorem linspace_getElem (a b : ℚ) (num : ℤ) (h : 2 ≤ num) (i : ℕ)
    (hi : i < num.toNat) :
    (linspace a b num)[i]? =
      some (a + (b - a) / ((num : ℚ) - 1) * (i : ℚ)) := by
  unfold linspace
  rw [if_neg (by omega), if_neg (by omega)]
  rw [List.getElem?_map, List.getElem?_range hi]
  simp only [Option.map_some']
  congr 1
  by_cases hlast : i = num.toNat - 1
  · rw [if_pos hlast, hlast]
    exact (linspace_step_last a b num h).symm
  · rw [if_neg hlast]

/-- C2 (amended): for n >= 2 strictly increasing frame times, a positive
integer oversampling factor and any min_onset, whenever the truncation of
the linear sample-count formula is at least 2 the high-resolution grid is
evenly spaced (every sample fits the affine formula), its first element is
min(frame_times) + min_onset, its last element is
max(frame_times) * (1 + 1/(n-1)), and its sample count is the truncation
int(formula) of the formula value, matching the formula itself only when
that value is an integer. -/
theorem C2_grid_linspace_truncated (ft : List ℚ) (os : ℤ) (mo : ℚ)
    (_hsort : List.Chain' (· < ·) ft) (_hn : 2 ≤ ft.length) (_hos : 1 ≤ os)
    (hN : 2 ≤ pyInt (nHrQ ft os mo)) :
    (hrFrameTimes ft os mo).length = (pyInt (nHrQ ft os mo)).toNat ∧
    (hrFrameTimes ft os mo).head? = some (listMin ft + mo) ∧
    (hrFrameTimes ft os mo).getLast? =
      some (listMax ft * (1 + 1 / ((ft.length : ℚ) - 1))) ∧
    ∀ i : ℕ, i < (pyInt (nHrQ ft os mo)).toNat →
      (hrFrameTimes ft os mo)[i]? =
        some ((listMin ft + mo) +
          (listMax ft * (1 + 1 / ((ft.length : ℚ) - 1)) - (listMin ft + mo)) /
            ((pyInt (nHrQ ft os mo) : ℚ) - 1) * (i : ℚ)) := by
  have hfr : hrFrameTimes ft os mo =
      linspace (listMin ft + mo) (listMax ft * (1 + 1 / ((ft.length : ℚ) - 1)))
        (pyInt (nHrQ ft os mo)) := rfl
  have hlen : (hrFrameTimes ft os mo).length = (pyInt (nHrQ ft os mo)).toNat := by
    rw [hfr]; exact linspace_length _ _ _ hN
  have hget : ∀ i : ℕ, i < (pyInt (nHrQ ft os mo)).toNat →
      (hrFrameTimes ft os mo)[i]? =
        some ((listMin ft + mo) +
          (listMax ft * (1 + 1 / ((ft.length : ℚ) - 1)) - (listMin ft + mo)) /
            ((pyInt (nHrQ ft os mo) : ℚ) - 1) * (i : ℚ)) := by
    intro i hi
    rw [hfr]
    exact linspace_getElem _ _ _ hN i hi
  refine ⟨hlen, ?_, ?_, hget⟩
  · rw [List.head?_eq_getElem?, hget 0 (by omega)]
    norm_num
  · rw [List.getLast?_eq_getElem?, hlen,
      hget ((pyInt (nHrQ ft os mo)).toNat - 1) (by omega)]
    rw [linspace_step_last _ _ _ hN]

/-- C2 witness: with frame times [0, 1], oversampling 1 and min_onset 0 the
formula value is the integer 3 and the grid is the three evenly spaced
samples from 0 to 2. -/
theorem C2_witness :
    (List.Chain' (· < ·) ([0, 1] : List ℚ) ∧ 2 ≤ ([0, 1] : List ℚ).length ∧
      (1 : ℤ) ≤ 1 ∧ 2 ≤ pyInt (nHrQ [0, 1] 1 0)) ∧
    ((hrFrameTimes [0, 1] 1 0).length = (pyInt (nHrQ [0, 1] 1 0)).toNat ∧
      (hrFrameTimes [0, 1] 1 0).head? = some (listMin [0, 1] + 0) ∧
      (hrFrameTimes [0, 1] 1 0).getLast? =
        some (listMax [0, 1] * (1 + 1 / ((([0, 1] : List ℚ).length : ℚ) - 1))) ∧
      ∀ i : ℕ, i < (pyInt (nHrQ [0, 1] 1 0)).toNat →
        (hrFrameTimes [0, 1] 1 0)[i]? =
          some ((listMin [0, 1] + 0) +
            (listMax [0, 1] * (1 + 1 / ((([0, 1] : List ℚ).length : ℚ) - 1)) -
                (listMin [0, 1] + 0)) /
              ((pyInt (nHrQ [0, 1] 1 0) : ℚ) - 1) * (i : ℚ))) :=
  ⟨⟨List.chain'_pair.mpr (by norm_num), by decide, by decide,
      by with_unfolding_all decide⟩,
    C2_grid_linspace_truncated [0, 1] 1 0 (List.chain'_pair.mpr (by norm_num))
      (by decide) (by decide) (by with_unfolding_all decide)⟩

/-- If the monadic map over a list succeeds, its output has the length of
its input. -/
theorem mapME_ok_length {α β : Type} (f : α → Except String β) :
    ∀ (l : List α) (l2 : List β), mapME f l = .ok l2 → l2.length = l.length := by
  intro l
  induction l with
  | nil =>
    intro l2 h
    simp only [mapME, Except.ok.injEq] at h
    subst h
    rfl
  | cons x xs ih =>
    intro l2 h
    simp only [mapME] at h
    cases hfx : f x with
    | error e => rw [hfx] at h; simp at h
    | ok y =>
      rw [hfx] at h
      cases hm : mapME f xs with
      | error e => rw [hm] at h; simp at h
      | ok ys =>
        rw [hm] at h
        simp only [Except.ok.injEq] at h
        subst h
        simp [ih ys hm]

/-- Reduction of compute_regressor when the kernel selection step fails. -/
theorem computeRegressor_kernel_error (gpdf : ℚ → ℚ → ℚ → ℚ)
    (pinv : (m i : ℕ) → Matrix (Fin m) (Fin i) ℚ → Matrix (Fin i) (Fin m) ℚ)
    (events : List Event) (model : String) (ft : List ℚ) (conId : String)
    (os : ℤ) (fd : Option (List ℤ)) (mo : ℚ) (reg grid : List ℚ) (e : String)
    (h0 : ¬ ft.length = 0) (h1 : ¬ ft.length = 1)
    (hsc : sampleCondition events ft os mo = .ok (reg, grid))
    (hk : hrfKernel gpdf model (listMax ft / ((ft.length : ℚ) - 1)) os fd =
      .error e) :
    computeRegressor gpdf pinv events model ft conId os fd mo = .error e := by
  unfold computeRegressor
  rw [if_neg h0, if_neg h1]
  simp only [hsc, hk]

/-- Reduction of compute_regressor when convolution fails. -/
theorem computeRegressor_conv_error (gpdf : ℚ → ℚ → ℚ → ℚ)
    (pinv : (m i : ℕ) → Matrix (Fin m) (Fin i) ℚ → Matrix (Fin i) (Fin m) ℚ)
    (events : List Event) (model : String) (ft : List ℚ) (conId : String)
    (os : ℤ) (fd : Option (List ℤ)) (mo : ℚ) (reg grid : List ℚ)
    (hk : List (List ℚ)) (e : String)
    (h0 : ¬ ft.length = 0) (h1 : ¬ ft.length = 1)
    (hsc : sampleCondition events ft os mo = .ok (reg, grid))
    (hhk : hrfKernel gpdf model (listMax ft / ((ft.length : ℚ) - 1)) os fd =
      .ok hk)
    (hc : mapME (convTrunc reg) hk = .error e) :
    computeRegressor gpdf pinv events model ft conId os fd mo = .error e := by
  unfold computeRegressor
  rw [if_neg h0, if_neg h1]
  simp only [hsc, hhk, hc]

/-- Reduction of compute_regressor when resampling fails. -/
theorem computeRegressor_resample_error (gpdf : ℚ → ℚ → ℚ → ℚ)
    (pinv : (m i : ℕ) → Matrix (Fin m) (Fin i) ℚ → Matrix (Fin i) (Fin m) ℚ)
    (events : List Event) (model : String) (ft : List ℚ) (conId : String)
    (os : ℤ) (fd : Option (List ℤ)) (mo : ℚ) (reg grid : List ℚ)
    (hk convReg : List (List ℚ)) (e : String)
    (h0 : ¬ ft.length = 0) (h1 : ¬ ft.length = 1)
    (hsc : sampleCondition events ft os mo = .ok (reg, grid))
    (hhk : hrfKernel gpdf model (listMax ft / ((ft.length : ℚ) - 1)) os fd =
      .ok hk)
    (hc : mapME (convTrunc reg) hk = .ok convReg)
    (hr : resampleRegressor grid convReg ft = .error e) :
    computeRegressor gpdf pinv events model ft conId os fd mo = .error e := by
  unfold computeRegressor
  rw [if_neg h0, if_neg h1]
  simp only [hsc, hhk, hc, hr]

/-- C8: for a model identifier that is none of the six supported ones,
compute_regressor never returns a result, and whenever the event-sampling
step itself succeeds the failure is exactly the unsupported-model error. -/
theorem C8_unknown_model_no_result (gpdf : ℚ → ℚ → ℚ → ℚ)
    (pinv : (m i : ℕ) → Matrix (Fin m) (Fin i) ℚ → Matrix (Fin i) (Fin m) ℚ)
    (events : List Event) (model : String) (ft : List ℚ) (conId : String)
    (os : ℤ) (fd : Option (List ℤ)) (mo : ℚ)
    (h1 : model ≠ "spm") (h2 : model ≠ "spm_time")
    (h3 : model ≠ "spm_time_dispersion") (h4 : model ≠ "canonical")
    (h5 : model ≠ "canonical with derivative") (h6 : model ≠ "fir") :
    (∃ e, computeRegressor gpdf pinv events model ft conId os fd mo = .error e) ∧
    ∀ v, sampleCondition events ft os mo = .ok v →
      computeRegressor gpdf pinv events model ft conId os fd mo =
        .error ("Unknown hrf model") := by
  have hker : ∀ tr : ℚ, hrfKernel gpdf model tr os fd =
      .error ("Unknown hrf model") := by
    intro tr
    unfold hrfKernel
    rw [if_neg h1, if_neg h2, if_neg h3, if_neg h4, if_neg h5, if_neg h6]
  have hmain : ∀ v, sampleCondition events ft os mo = .ok v →
      computeRegressor gpdf pinv events model ft conId os fd mo =
        .error ("Unknown hrf model") := by
    intro v hsc
    have h0 : ¬ ft.length = 0 := by
      intro h
      unfold sampleCondition at hsc
      rw [if_pos h] at hsc
      exact Except.noConfusion hsc
    have h1' : ¬ ft.length = 1 := by
      intro h
      unfold sampleCondition at hsc
      rw [if_neg h0, if_pos h] at hsc
      exact Except.noConfusion hsc
    obtain ⟨reg, grid⟩ := v
    exact computeRegressor_kernel_error gpdf pinv events model ft conId os fd mo
      reg grid _ h0 h1' hsc (hker _)
  refine ⟨?_, hmain⟩
  by_cases h0 : ft.length = 0
  · exact ⟨_, by unfold computeRegressor; rw [if_pos h0]⟩
  by_cases h1' : ft.length = 1
  · exact ⟨_, by unfold computeRegressor; rw [if_neg h0, if_pos h1']⟩
  cases hsc : sampleCondition events ft os mo with
  | error e =>
    refine ⟨e, ?_⟩
    unfold computeRegressor
    rw [if_neg h0, if_neg h1']
    simp only [hsc]
  | ok v => exact ⟨_, hmain v hsc⟩

/-- C8 witness: the identifier "hrf" makes a concrete call fail with the
unsupported-model error. -/
theorem C8_witness :
    (("hrf" : String) ≠ "spm" ∧ ("hrf" : String) ≠ "spm_time" ∧
      ("hrf" : String) ≠ "spm_time_dispersion" ∧ ("hrf" : String) ≠ "canonical" ∧
      ("hrf" : String) ≠ "canonical with derivative" ∧ ("hrf" : String) ≠ "fir") ∧
    ((∃ e, computeRegressor gpdf0 pinv0 [] "hrf" [0, 1] "cond" 1 none 0 = .error e) ∧
      ∀ v, sampleCondition [] [0, 1] 1 0 = .ok v →
        computeRegressor gpdf0 pinv0 [] "hrf" [0, 1] "cond" 1 none 0 =
          .error ("Unknown hrf model")) :=
  ⟨⟨by decide, by decide, by decide, by decide, by decide, by decide⟩,
    C8_unknown_model_no_result gpdf0 pinv0 [] "hrf" [0, 1] "cond" 1 none 0
      (by decide) (by decide) (by decide) (by decide) (by decide) (by decide)⟩

/-- A gamma-difference kernel cannot be built at zero oversampling:
tr / oversampling raises. -/
theorem gammaDifferenceHrf_os_zero (gpdf : ℚ → ℚ → ℚ → ℚ) (tr : ℚ)
    (tl onset d u di udi w : ℚ) :
    gammaDifferenceHrf gpdf tr 0 tl onset d u di udi w =
      .error ("ZeroDivisionError: tr / oversampling") := by
  unfold gammaDifferenceHrf
  rw [if_pos rfl]

/-- A fir kernel at zero oversampling is an empty array. -/
theorem firKernel_os_zero (d : ℤ) : firKernel 0 d = .ok ([] : List ℚ) := by
  unfold firKernel
  rw [mul_zero]
  rfl

/-- Convolution by an empty kernel always raises. -/
theorem convolve_empty_right (a : List ℚ) : ∃ e, convolve a [] = .error e := by
  unfold convolve
  by_cases ha : a.isEmpty
  · rw [if_pos ha]; exact ⟨_, rfl⟩
  · rw [if_neg ha]
    exact ⟨_, if_pos rfl⟩

/-- Resampling an empty row stack always raises in interp1d. -/
theorem resample_empty_rows (x ft : List ℚ) :
    ∃ e, resampleRegressor x ([] : List (List ℚ)) ft = .error e := by
  unfold resampleRegressor
  by_cases hx : x.length = 0
  · rw [if_neg (by simp [hx]), if_pos (by omega)]
    exact ⟨_, rfl⟩
  · rw [if_pos (by simp [hx])]
    exact ⟨_, rfl⟩

/-- C9 (amended): a call with zero oversampling, or with fewer than two
frame times, always fails (with the division-by-zero or empty-array error
that the unvalidated parameters eventually cause) and never returns a
result; a negative oversampling factor is not covered, since such calls can
return a result. -/
theorem C9_invalid_parameters_fail (gpdf : ℚ → ℚ → ℚ → ℚ)
    (pinv : (m i : ℕ) → Matrix (Fin m) (Fin i) ℚ → Matrix (Fin i) (Fin m) ℚ)
    (events : List Event) (model : String) (ft : List ℚ) (conId : String)
    (os : ℤ) (fd : Option (List ℤ)) (mo : ℚ)
    (h : os = 0 ∨ ft.length < 2) :
    ∃ e, computeRegressor gpdf pinv events model ft conId os fd mo = .error e := by
  by_cases h0 : ft.length = 0
  · exact ⟨_, by unfold computeRegressor; rw [if_pos h0]⟩
  by_cases h1' : ft.length = 1
  · exact ⟨_, by unfold computeRegressor; rw [if_neg h0, if_pos h1']⟩
  have hos : os = 0 := by
    rcases h with h | h
    · exact h
    · omega
  subst hos
  cases hsc : sampleCondition events ft 0 mo with
  | error e =>
    exact ⟨e, by unfold computeRegressor; rw [if_neg h0, if_neg h1']; simp only [hsc]⟩
  | ok v =>
    obtain ⟨reg, grid⟩ := v
    by_cases hm1 : model = "spm"
    · subst hm1
      have hk : hrfKernel gpdf "spm" (listMax ft / ((ft.length : ℚ) - 1)) 0 fd =
          .error ("ZeroDivisionError: tr / oversampling") := by
        unfold hrfKernel spmHrf
        rw [if_pos rfl]
        simp only [gammaDifferenceHrf_os_zero]
      exact ⟨_, computeRegressor_kernel_error _ pinv events _ ft conId _ fd mo
        reg grid _ h0 h1' hsc hk⟩
    by_cases hm2 : model = "spm_time"
    · subst hm2
      have hk : hrfKernel gpdf "spm_time" (listMax ft / ((ft.length : ℚ) - 1)) 0 fd =
          .error ("ZeroDivisionError: tr / oversampling") := by
        unfold hrfKernel spmHrf
        rw [if_neg (by decide), if_pos rfl]
        simp only [gammaDifferenceHrf_os_zero]
      exact ⟨_, computeRegressor_kernel_error _ pinv events _ ft conId _ fd mo
        reg grid _ h0 h1' hsc hk⟩
    by_cases hm3 : model = "spm_time_dispersion"
    · subst hm3
      have hk : hrfKernel gpdf "spm_time_dispersion" (listMax ft / ((ft.length : ℚ) - 1)) 0 fd =
          .error ("ZeroDivisionError: tr / oversampling") := by
        unfold hrfKernel spmHrf
        rw [if_neg (by decide), if_neg (by decide), if_pos rfl]
        simp only [gammaDifferenceHrf_os_zero]
      exact ⟨_, computeRegressor_kernel_error _ pinv events _ ft conId _ fd mo
        reg grid _ h0 h1' hsc hk⟩
    by_cases hm4 : model = "canonical"
    · subst hm4
      have hk : hrfKernel gpdf "canonical" (listMax ft / ((ft.length : ℚ) - 1)) 0 fd =
          .error ("ZeroDivisionError: tr / oversampling") := by
        unfold hrfKernel gloverHrf
        rw [if_neg (by decide), if_neg (by decide), if_neg (by decide), if_pos rfl]
        simp only [gammaDifferenceHrf_os_zero]
      exact ⟨_, computeRegressor_kernel_error _ pinv events _ ft conId _ fd mo
        reg grid _ h0 h1' hsc hk⟩
    by_cases hm5 : model = "canonical with derivative"
    · subst hm5
      have hk : hrfKernel gpdf "canonical with derivative" (listMax ft / ((ft.length : ℚ) - 1)) 0 fd =
          .error ("ZeroDivisionError: tr / oversampling") := by
        unfold hrfKernel gloverHrf
        rw [if_neg (by decide), if_neg (by decide), if_neg (by decide),
        if_neg (by decide), if_pos rfl]
        simp only [gammaDifferenceHrf_os_zero]
      exact ⟨_, computeRegressor_kernel_error _ pinv events _ ft conId _ fd mo
        reg grid _ h0 h1' hsc hk⟩
    by_cases hm6 : model = "fir"
    · subst hm6
      have hfirsel : ∀ ds, hrfKernel gpdf "fir" (listMax ft / ((ft.length : ℚ) - 1)) 0
          (some ds) = mapME (firKernel 0) ds := by
        intro ds
        unfold hrfKernel
        rw [if_neg (by decide), if_neg (by decide), if_neg (by decide),
          if_neg (by decide), if_neg (by decide), if_pos rfl]
      cases fd with
      | none =>
        have hk : hrfKernel gpdf "fir" (listMax ft / ((ft.length : ℚ) - 1)) 0 none =
            .error ("TypeError: NoneType is not iterable") := by
          unfold hrfKernel
          rw [if_neg (by decide), if_neg (by decide), if_neg (by decide),
            if_neg (by decide), if_neg (by decide), if_pos rfl]
        exact ⟨_, computeRegressor_kernel_error _ pinv events _ ft conId _ none mo
          reg grid _ h0 h1' hsc hk⟩
      | some ds =>
        cases ds with
        | nil =>
          obtain ⟨e, hre⟩ := resample_empty_rows grid ft
          refine ⟨e, computeRegressor_resample_error _ pinv events _ ft conId _
            (some []) mo reg grid [] [] e h0 h1' hsc (by rw [hfirsel]; rfl) rfl hre⟩
        | cons d ds' =>
          cases hrest : mapME (firKernel 0) ds' with
          | error e =>
            have hk : hrfKernel gpdf "fir" (listMax ft / ((ft.length : ℚ) - 1)) 0
                (some (d :: ds')) = .error e := by
              rw [hfirsel]
              simp only [mapME, firKernel_os_zero, hrest]
            exact ⟨e, computeRegressor_kernel_error _ pinv events _ ft conId _
              (some (d :: ds')) mo reg grid e h0 h1' hsc hk⟩
          | ok ys =>
            obtain ⟨e, hce⟩ := convolve_empty_right reg
            have hk : hrfKernel gpdf "fir" (listMax ft / ((ft.length : ℚ) - 1)) 0
                (some (d :: ds')) = .ok ([] :: ys) := by
              rw [hfirsel]
              simp only [mapME, firKernel_os_zero, hrest]
            have hcv : mapME (convTrunc reg) ([] :: ys) = .error e := by
              simp only [mapME, convTrunc, hce]
            exact ⟨e, computeRegressor_conv_error _ pinv events _ ft conId _
              (some (d :: ds')) mo reg grid ([] :: ys) e h0 h1' hsc hk hcv⟩
    have hk : hrfKernel gpdf model (listMax ft / ((ft.length : ℚ) - 1)) 0 fd =
        .error ("Unknown hrf model") := by
      unfold hrfKernel
      rw [if_neg hm1, if_neg hm2, if_neg hm3, if_neg hm4, if_neg hm5, if_neg hm6]
    exact ⟨_, computeRegressor_kernel_error _ pinv events _ ft conId _ fd mo
      reg grid _ h0 h1' hsc hk⟩

/-- C9 witness: a concrete zero-oversampling call fails. -/
theorem C9_witness :
    ((0 : ℤ) = 0 ∨ ([0, 1] : List ℚ).length < 2) ∧
    ∃ e, computeRegressor gpdf0 pinv0 [] "spm" [0, 1] "cond" 0 none 0 = .error e :=
  ⟨Or.inl rfl,
    C9_invalid_parameters_fail gpdf0 pinv0 [] "spm" [0, 1] "cond" 0 none 0 (Or.inl rfl)⟩

/-- Orthogonalization rebuilds the column list with the same column count. -/
theorem orthoCols_length (m : ℕ)
    (pinv : (i : ℕ) → Matrix (Fin m) (Fin i) ℚ → Matrix (Fin i) (Fin m) ℚ)
    (cols : List (List ℚ)) : (orthoCols m pinv cols).length = cols.length := by
  simp [orthoCols]

/-- A successful resampling yields one interpolated row per input row. -/
theorem resample_ok_length (x : List ℚ) (rows : List (List ℚ)) (ft : List ℚ)
    (out : List (List ℚ)) (h : resampleRegressor x rows ft = .ok out) :
    out.length = rows.length := by
  unfold resampleRegressor at h
  split at h
  · exact Except.noConfusion h
  split at h
  · exact Except.noConfusion h
  exact mapME_ok_length _ rows out h

/-- A successful compute_regressor call selected its kernels and names, and
the matrix has one column per kernel. -/
theorem computeRegressor_ok_shape (gpdf : ℚ → ℚ → ℚ → ℚ)
    (pinv : (m i : ℕ) → Matrix (Fin m) (Fin i) ℚ → Matrix (Fin i) (Fin m) ℚ)
    (events : List Event) (model : String) (ft : List ℚ) (conId : String)
    (os : ℤ) (fd : Option (List ℤ)) (mo : ℚ)
    (creg : List (List ℚ)) (names : Option (List String))
    (h : computeRegressor gpdf pinv events model ft conId os fd mo =
      .ok (creg, names)) :
    ∃ hk, hrfKernel gpdf model (listMax ft / ((ft.length : ℚ) - 1)) os fd = .ok hk ∧
      regressorNames conId model fd = .ok names ∧
      creg.length = hk.length := by
  unfold computeRegressor at h
  split at h
  · exact Except.noConfusion h
  split at h
  · exact Except.noConfusion h
  split at h
  · exact Except.noConfusion h
  next reg grid hsc =>
    split at h
    · exact Except.noConfusion h
    next hk hhk =>
      split at h
      · exact Except.noConfusion h
      next convReg hcv =>
        split at h
        · exact Except.noConfusion h
        next cols hrs =>
          split at h
          · exact Except.noConfusion h
          next nm hnm =>
            refine ⟨hk, hhk, ?_, ?_⟩
            · injection h with h'
              rw [hnm]
              rw [show nm = names from congrArg Prod.snd h']
            · injection h with h'
              have hcreg : creg =
                  (if model ≠ "fir" then orthoCols ft.length (pinv ft.length) cols
                   else cols) := (congrArg Prod.fst h').symm
              have hcols : cols.length = hk.length := by
                rw [resample_ok_length grid convReg ft cols hrs]
                exact mapME_ok_length _ hk convReg hcv
              rw [hcreg]
              by_cases hfir : model ≠ "fir"
              · rw [if_pos hfir, orthoCols_length]
                exact hcols
              · rw [if_neg hfir]
                exact hcols

/-- C5: a successful compute_regressor call on one of the six model
identifiers returns a matrix and a name list with equal counts, in the
model-determined order: one column for spm and canonical, two for spm_time
and canonical with derivative, three for spm_time_dispersion, and one per
delay for fir. -/
theorem C5_names_match_columns (gpdf : ℚ → ℚ → ℚ → ℚ)
    (pinv : (m i : ℕ) → Matrix (Fin m) (Fin i) ℚ → Matrix (Fin i) (Fin m) ℚ)
    (events : List Event) (model : String) (ft : List ℚ) (conId : String)
    (os : ℤ) (fd : Option (List ℤ)) (mo : ℚ)
    (creg : List (List ℚ)) (names : Option (List String))
    (hmodel : model = "spm" ∨ model = "spm_time" ∨ model = "spm_time_dispersion" ∨
      model = "canonical" ∨ model = "canonical with derivative" ∨ model = "fir")
    (hok : computeRegressor gpdf pinv events model ft conId os fd mo =
      .ok (creg, names)) :
    ∃ l, names = some l ∧ creg.length = l.length ∧
      ((model = "spm" ∨ model = "canonical") → l.length = 1) ∧
      ((model = "spm_time" ∨ model = "canonical with derivative") → l.length = 2) ∧
      (model = "spm_time_dispersion" → l.length = 3) ∧
      ∀ ds, fd = some ds → model = "fir" → l.length = ds.length := by
  obtain ⟨hk, hhk, hnm, hcl⟩ := computeRegressor_ok_shape gpdf pinv events model ft
    conId os fd mo creg names hok
  rcases hmodel with rfl | rfl | rfl | rfl | rfl | rfl
  · -- spm
    have hname : names = some [conId] := by
      unfold regressorNames at hnm
      rw [if_neg (by decide), if_neg (by decide), if_pos rfl] at hnm
      injection hnm with h'
      exact h'.symm
    have hkl : hk.length = 1 := by
      unfold hrfKernel at hhk
      rw [if_pos rfl] at hhk
      split at hhk
      · exact Except.noConfusion hhk
      injection hhk with h'
      rw [← h']
      rfl
    refine ⟨[conId], hname, by rw [hcl, hkl]; rfl, fun _ => rfl,
      fun hcon => absurd hcon (by decide), fun hcon => absurd hcon (by decide),
      fun ds _ hcon => absurd hcon (by decide)⟩
  · -- spm_time
    have hname : names = some [conId, conId ++ "_derivative"] := by
      unfold regressorNames at hnm
      rw [if_neg (by decide), if_neg (by decide), if_neg (by decide),
        if_pos rfl] at hnm
      injection hnm with h'
      exact h'.symm
    have hkl : hk.length = 2 := by
      unfold hrfKernel at hhk
      rw [if_neg (by decide), if_pos rfl] at hhk
      split at hhk
      · exact Except.noConfusion hhk
      split at hhk
      · exact Except.noConfusion hhk
      injection hhk with h'
      rw [← h']
      rfl
    refine ⟨[conId, conId ++ "_derivative"], hname, by rw [hcl, hkl]; rfl,
      fun hcon => absurd hcon (by decide), fun _ => rfl,
      fun hcon => absurd hcon (by decide),
      fun ds _ hcon => absurd hcon (by decide)⟩
  · -- spm_time_dispersion
    have hname : names =
        some [conId, conId ++ "_derivative", conId ++ "_dispersion"] := by
      unfold regressorNames at hnm
      rw [if_neg (by decide), if_neg (by decide), if_neg (by decide),
        if_neg (by decide), if_pos rfl] at hnm
      injection hnm with h'
      exact h'.symm
    have hkl : hk.length = 3 := by
      unfold hrfKernel at hhk
      rw [if_neg (by decide), if_neg (by decide), if_pos rfl] at hhk
      split at hhk
      · exact Except.noConfusion hhk
      split at hhk
      · exact Except.noConfusion hhk
      split at hhk
      · exact Except.noConfusion hhk
      injection hhk with h'
      rw [← h']
      rfl
    refine ⟨[conId, conId ++ "_derivative", conId ++ "_dispersion"], hname,
      by rw [hcl, hkl]; rfl, fun hcon => absurd hcon (by decide),
      fun hcon => absurd hcon (by decide), fun _ => rfl,
      fun ds _ hcon => absurd hcon (by decide)⟩
  · -- canonical
    have hname : names = some [conId] := by
      unfold regressorNames at hnm
      rw [if_pos rfl] at hnm
      injection hnm with h'
      exact h'.symm
    have hkl : hk.length = 1 := by
      unfold hrfKernel at hhk
      rw [if_neg (by decide), if_neg (by decide), if_neg (by decide),
        if_pos rfl] at hhk
      split at hhk
      · exact Except.noConfusion hhk
      injection hhk with h'
      rw [← h']
      rfl
    refine ⟨[conId], hname, by rw [hcl, hkl]; rfl, fun _ => rfl,
      fun hcon => absurd hcon (by decide), fun hcon => absurd hcon (by decide),
      fun ds _ hcon => absurd hcon (by decide)⟩
  · -- canonical with derivative
    have hname : names = some [conId, conId ++ "_derivative"] := by
      unfold regressorNames at hnm
      rw [if_neg (by decide), if_pos rfl] at hnm
      injection hnm with h'
      exact h'.symm
    have hkl : hk.length = 2 := by
      unfold hrfKernel at hhk
      rw [if_neg (by decide), if_neg (by decide), if_neg (by decide),
        if_neg (by decide), if_pos rfl] at hhk
      split at hhk
      · exact Except.noConfusion hhk
      split at hhk
      · exact Except.noConfusion hhk
      injection hhk with h'
      rw [← h']
      rfl
    refine ⟨[conId, conId ++ "_derivative"], hname, by rw [hcl, hkl]; rfl,
      fun hcon => absurd hcon (by decide), fun _ => rfl,
      fun hcon => absurd hcon (by decide),
      fun ds _ hcon => absurd hcon (by decide)⟩
  · -- fir
    cases fd with
    | none =>
      unfold regressorNames at hnm
      rw [if_neg (by decide), if_neg (by decide), if_neg (by decide),
        if_neg (by decide), if_neg (by decide), if_pos rfl] at hnm
      exact Except.noConfusion hnm
    | some ds =>
      have hname : names = some (ds.map (fun i => conId ++ "_delay_" ++ toString i)) := by
        unfold regressorNames at hnm
        rw [if_neg (by decide), if_neg (by decide), if_neg (by decide),
          if_neg (by decide), if_neg (by decide), if_pos rfl] at hnm
        injection hnm with h'
        exact h'.symm
      have hkl : hk.length = ds.length := by
        unfold hrfKernel at hhk
        rw [if_neg (by decide), if_neg (by decide), if_neg (by decide),
          if_neg (by decide), if_neg (by decide), if_pos rfl] at hhk
        exact mapME_ok_length _ ds hk hhk
      refine ⟨ds.map (fun i => conId ++ "_delay_" ++ toString i), hname,
        by rw [hcl, hkl, List.length_map],
        fun hcon => absurd hcon (by decide), fun hcon => absurd hcon (by decide),
        fun hcon => absurd hcon (by decide), ?_⟩
      intro ds' hds _
      injection hds with h'
      rw [← h', List.length_map]

set_option maxRecDepth 8000 in
/-- C5 witness: a concrete successful spm call returns one column and the
single name. -/
theorem C5_witness :
    ((("spm" : String) = "spm" ∨ ("spm" : String) = "spm_time" ∨
        ("spm" : String) = "spm_time_dispersion" ∨ ("spm" : String) = "canonical" ∨
        ("spm" : String) = "canonical with derivative" ∨ ("spm" : String) = "fir") ∧
      computeRegressor gpdf0 pinv0 [⟨0, 1, 1⟩] "spm" [0, 1] "cond" 1 none 0 =
        .ok ([[0, 0]], some ["cond"])) ∧
    ∃ l, (some ["cond"] : Option (List String)) = some l ∧
      ([[0, 0]] : List (List ℚ)).length = l.length ∧
      ((("spm" : String) = "spm" ∨ ("spm" : String) = "canonical") → l.length = 1) ∧
      ((("spm" : String) = "spm_time" ∨
          ("spm" : String) = "canonical with derivative") → l.length = 2) ∧
      (("spm" : String) = "spm_time_dispersion" → l.length = 3) ∧
      ∀ ds, (none : Option (List ℤ)) = some ds → ("spm" : String) = "fir" →
        l.length = ds.length :=
  ⟨⟨Or.inl rfl, by with_unfolding_all rfl⟩,
    C5_names_match_columns gpdf0 pinv0 [⟨0, 1, 1⟩] "spm" [0, 1] "cond" 1 none 0
      [[0, 0]] (some ["cond"]) (Or.inl rfl) (by with_unfolding_all rfl)⟩

/-- An orthogonalization iteration for column i leaves every other column
unchanged. -/
theorem orthoStep_ne {n p : ℕ}
    (pinv : (i : ℕ) → Matrix (Fin n) (Fin i) ℚ → Matrix (Fin i) (Fin n) ℚ)
    (X : Matrix (Fin n) (Fin p) ℚ) (i : ℕ) (r : Fin n) (c : Fin p)
    (hc : c.val ≠ i) : orthoStep pinv X i r c = X r c := by
  unfold orthoStep
  split
  · next h =>
    dsimp only
    rw [if_neg]
    intro he
    exact hc (by rw [he])
  · rfl

/-- Unrolling one iteration of the loop state. -/
theorem orthoUpto_succ {n p : ℕ}
    (pinv : (i : ℕ) → Matrix (Fin n) (Fin i) ℚ → Matrix (Fin i) (Fin n) ℚ)
    (X : Matrix (Fin n) (Fin p) ℚ) (k : ℕ) :
    orthoUpto pinv X (k + 1) = orthoStep pinv (orthoUpto pinv X k) (k + 1) := by
  unfold orthoUpto
  rw [List.range'_concat, List.foldl_concat]
  rw [show 1 + 1 * k = k + 1 by omega]

/-- Columns beyond the iterations performed so far are still the input's. -/
theorem orthoUpto_untouched {n p : ℕ}
    (pinv : (i : ℕ) → Matrix (Fin n) (Fin i) ℚ → Matrix (Fin i) (Fin n) ℚ)
    (X : Matrix (Fin n) (Fin p) ℚ) :
    ∀ (k : ℕ) (r : Fin n) (c : Fin p), k < c.val →
      orthoUpto pinv X k r c = X r c := by
  intro k
  induction k with
  | zero => intro r c _; rfl
  | succ k ih =>
    intro r c hc
    rw [orthoUpto_succ, orthoStep_ne]
    · exact ih r c (by omega)
    · omega

/-- Columns already processed are never modified by later iterations. -/
theorem orthoUpto_stable {n p : ℕ}
    (pinv : (i : ℕ) → Matrix (Fin n) (Fin i) ℚ → Matrix (Fin i) (Fin n) ℚ)
    (X : Matrix (Fin n) (Fin p) ℚ) (k : ℕ) :
    ∀ (d : ℕ) (r : Fin n) (c : Fin p), c.val ≤ k →
      orthoUpto pinv X (k + d) r c = orthoUpto pinv X k r c := by
  intro d
  induction d with
  | zero => intro r c _; rfl
  | succ d ih =>
    intro r c hc
    rw [show k + (d + 1) = (k + d) + 1 from rfl, orthoUpto_succ, orthoStep_ne]
    · exact ih r c hc
    · omega

/-- Penrose identities assumed of the pinv parameter at a leading-column
matrix: A pinv(A) A = A and A pinv(A) symmetric.  numpy.linalg.pinv returns
the Moore-Penrose pseudoinverse, which satisfies both (and two more). -/
@[reducible]
def penroseAt {n p : ℕ}
    (pinv : (i : ℕ) → Matrix (Fin n) (Fin i) ℚ → Matrix (Fin i) (Fin n) ℚ)
    (M : Matrix (Fin n) (Fin p) ℚ) (i : ℕ) (hi : i ≤ p) : Prop :=
  leadCols M i hi * pinv i (leadCols M i hi) * leadCols M i hi = leadCols M i hi ∧
  Matrix.transpose (leadCols M i hi * pinv i (leadCols M i hi)) =
    leadCols M i hi * pinv i (leadCols M i hi)

/-- For any B with A B A = A and A B symmetric (as the Moore-Penrose
pseudoinverse is), the row-vector product x (A B) is the least-squares
projection of x onto the column space of A: the residual is orthogonal to
every column of A, and the projection is A applied to B x. -/
theorem pinv_proj {n i : ℕ} (A : Matrix (Fin n) (Fin i) ℚ)
    (B : Matrix (Fin i) (Fin n) ℚ) (x : Fin n → ℚ)
    (h1 : A * B * A = A) (h3 : Matrix.transpose (A * B) = A * B) :
    Matrix.vecMul (x - Matrix.vecMul x (A * B)) A = 0 ∧
    Matrix.vecMul x (A * B) = A.mulVec (B.mulVec x) := by
  constructor
  · rw [Matrix.sub_vecMul, Matrix.vecMul_vecMul, h1, sub_self]
  · conv_lhs => rw [← h3]
    rw [Matrix.vecMul_transpose, Matrix.mulVec_mulVec]

/-- One orthogonalization iteration in terms of the input column and the
previous state's leading columns. -/
theorem orthoUpto_col_step {n p : ℕ}
    (pinv : (i : ℕ) → Matrix (Fin n) (Fin i) ℚ → Matrix (Fin i) (Fin n) ℚ)
    (X : Matrix (Fin n) (Fin p) ℚ) (j : ℕ) (h : j + 1 < p) (r : Fin n) :
    orthoUpto pinv X (j + 1) r ⟨j + 1, h⟩ =
      X r ⟨j + 1, h⟩ - Matrix.vecMul (fun r' => X r' ⟨j + 1, h⟩)
        (leadCols (orthoUpto pinv X j) (j + 1) (Nat.le_of_lt h) *
          pinv (j + 1) (leadCols (orthoUpto pinv X j) (j + 1) (Nat.le_of_lt h))) r := by
  rw [orthoUpto_succ]
  unfold orthoStep
  rw [dif_pos h]
  rw [if_pos rfl]
  have hx : (fun r' => orthoUpto pinv X j r' ⟨j + 1, h⟩) =
      (fun r' => X r' ⟨j + 1, h⟩) :=
    funext fun r' => orthoUpto_untouched pinv X j r' _ (Nat.lt_succ_self j)
  rw [hx, orthoUpto_untouched pinv X j r _ (Nat.lt_succ_self j)]

/-- In the final matrix, column c has the value it got at its own
iteration. -/
theorem ortho_col_eq_upto {n p : ℕ}
    (pinv : (i : ℕ) → Matrix (Fin n) (Fin i) ℚ → Matrix (Fin i) (Fin n) ℚ)
    (X : Matrix (Fin n) (Fin p) ℚ) (hg : ¬ n * p = n) (c : Fin p) (r : Fin n) :
    orthogonalize pinv X r c = orthoUpto pinv X c.val r c := by
  unfold orthogonalize
  rw [if_neg hg]
  have := c.isLt
  rw [show p - 1 = c.val + (p - 1 - c.val) by omega]
  exact orthoUpto_stable pinv X c.val _ r c (le_refl _)

/-- The leading i columns of the final matrix equal those of the state
before iteration i. -/
theorem ortho_leadCols {n p : ℕ}
    (pinv : (i : ℕ) → Matrix (Fin n) (Fin i) ℚ → Matrix (Fin i) (Fin n) ℚ)
    (X : Matrix (Fin n) (Fin p) ℚ) (hg : ¬ n * p = n) (i : ℕ) (hi : i < p) :
    leadCols (orthogonalize pinv X) i (Nat.le_of_lt hi) =
      leadCols (orthoUpto pinv X (i - 1)) i (Nat.le_of_lt hi) := by
  funext r c
  have hci := c.isLt
  unfold orthogonalize leadCols
  rw [if_neg hg]
  rw [show p - 1 = (i - 1) + (p - 1 - (i - 1)) by omega]
  exact orthoUpto_stable pinv X (i - 1) _ r _ (show (c : ℕ) ≤ i - 1 by omega)

/-- The value of the orthogonalizer at a column i >= 1: the input column
minus the pinv-based projection row product against the already
orthogonalized leading columns of the result. -/
theorem ortho_col_formula {n p : ℕ}
    (pinv : (i : ℕ) → Matrix (Fin n) (Fin i) ℚ → Matrix (Fin i) (Fin n) ℚ)
    (X : Matrix (Fin n) (Fin p) ℚ) (hg : ¬ n * p = n)
    (i : Fin p) (h1 : 1 ≤ i.val) (r : Fin n) :
    orthogonalize pinv X r i =
      X r i - Matrix.vecMul (fun r' => X r' i)
        (leadCols (orthogonalize pinv X) i.val (Nat.le_of_lt i.isLt) *
          pinv i.val (leadCols (orthogonalize pinv X) i.val (Nat.le_of_lt i.isLt))) r := by
  have hip := i.isLt
  rw [ortho_col_eq_upto pinv X hg i r, ortho_leadCols pinv X hg i.val i.isLt]
  obtain ⟨j, hj⟩ : ∃ j, i.val = j + 1 := ⟨i.val - 1, by omega⟩
  have hfin : i = ⟨j + 1, by omega⟩ := Fin.ext hj
  rw [hfin]
  simp only [Nat.add_sub_cancel]
  exact orthoUpto_col_step pinv X j (by omega) r

/-- Columns of the orthogonalized matrix are pairwise orthogonal: each
column i >= 1 has zero dot product with every earlier column of the
result. -/
theorem ortho_cols_orthogonal {n p : ℕ}
    (pinv : (i : ℕ) → Matrix (Fin n) (Fin i) ℚ → Matrix (Fin i) (Fin n) ℚ)
    (X : Matrix (Fin n) (Fin p) ℚ)
    (hpen : ∀ i : ℕ, (hi : i < p) → 1 ≤ i →
      penroseAt pinv (orthogonalize pinv X) i (Nat.le_of_lt hi)) :
    ∀ i j : Fin p, 1 ≤ i.val → j.val < i.val →
      Matrix.dotProduct (fun r => orthogonalize pinv X r i)
        (fun r => orthogonalize pinv X r j) = 0 := by
  intro i j h1 hji
  by_cases hg : n * p = n
  · -- i >= 1 forces p >= 2, so the guard forces n = 0 and empty sums
    have hp2 : 2 ≤ p := by have := i.isLt; omega
    have hn0 : n = 0 := by
      rcases Nat.eq_zero_or_pos n with h | h
      · exact h
      · have hp1 : p = 1 := Nat.eq_of_mul_eq_mul_left h
          (by rw [hg, Nat.mul_one] : n * p = n * 1)
        omega
    subst hn0
    simp [Matrix.dotProduct]
  · obtain ⟨hA1, hA3⟩ := hpen i.val i.isLt h1
    have hres := (pinv_proj
      (leadCols (orthogonalize pinv X) i.val (Nat.le_of_lt i.isLt))
      (pinv i.val (leadCols (orthogonalize pinv X) i.val (Nat.le_of_lt i.isLt)))
      (fun r => X r i) hA1 hA3).1
    have hcoli : (fun r => orthogonalize pinv X r i) =
        (fun r => X r i) - Matrix.vecMul (fun r => X r i)
          (leadCols (orthogonalize pinv X) i.val (Nat.le_of_lt i.isLt) *
            pinv i.val (leadCols (orthogonalize pinv X) i.val (Nat.le_of_lt i.isLt))) := by
      funext r
      rw [Pi.sub_apply]
      exact ortho_col_formula pinv X hg i h1 r
    have hcolj : (fun r => orthogonalize pinv X r j) =
        fun r => leadCols (orthogonalize pinv X) i.val (Nat.le_of_lt i.isLt) r
          ⟨j.val, hji⟩ := by
      funext r
      rfl
    rw [hcoli, hcolj]
    have hentry : Matrix.dotProduct
        ((fun r => X r i) - Matrix.vecMul (fun r => X r i)
          (leadCols (orthogonalize pinv X) i.val (Nat.le_of_lt i.isLt) *
            pinv i.val (leadCols (orthogonalize pinv X) i.val (Nat.le_of_lt i.isLt))))
        (fun r => leadCols (orthogonalize pinv X) i.val (Nat.le_of_lt i.isLt) r
          ⟨j.val, hji⟩) =
        Matrix.vecMul
          ((fun r => X r i) - Matrix.vecMul (fun r => X r i)
            (leadCols (orthogonalize pinv X) i.val (Nat.le_of_lt i.isLt) *
              pinv i.val (leadCols (orthogonalize pinv X) i.val (Nat.le_of_lt i.isLt))))
          (leadCols (orthogonalize pinv X) i.val (Nat.le_of_lt i.isLt))
          ⟨j.val, hji⟩ := rfl
    rw [hentry, hres]
    rfl

/-- C1: for every matrix (with the pinv parameter satisfying the Penrose
identities at the leading-column matrices it is applied to, as
numpy.linalg.pinv's unique Moore-Penrose pseudoinverse does), a single
column passes through unchanged; column 0 is never modified; and every
column i >= 1 of the result equals the input column i minus its
least-squares projection onto the span of the already-orthogonalized
columns 0..i-1 of the result: the result column is orthogonal to each of
those columns and differs from the input column by a linear combination of
them, with no renormalization. -/
theorem C1_orthogonalize_least_squares {n p : ℕ}
    (pinv : (i : ℕ) → Matrix (Fin n) (Fin i) ℚ → Matrix (Fin i) (Fin n) ℚ)
    (X : Matrix (Fin n) (Fin p) ℚ)
    (hpen : ∀ i : ℕ, (hi : i < p) → 1 ≤ i →
      penroseAt pinv (orthogonalize pinv X) i (Nat.le_of_lt hi)) :
    (p = 1 → orthogonalize pinv X = X) ∧
    (∀ h0 : 0 < p, ∀ r, orthogonalize pinv X r ⟨0, h0⟩ = X r ⟨0, h0⟩) ∧
    ∀ i : Fin p, 1 ≤ i.val →
      (∀ j : Fin p, j.val < i.val →
        Matrix.dotProduct (fun r => orthogonalize pinv X r i)
          (fun r => orthogonalize pinv X r j) = 0) ∧
      ∃ coef : Fin i.val → ℚ, ∀ r,
        orthogonalize pinv X r i =
          X r i - ∑ c : Fin i.val, coef c *
            orthogonalize pinv X r ⟨c.val, Nat.lt_trans c.isLt i.isLt⟩ := by
  refine ⟨?_, ?_, ?_⟩
  · intro hp1
    unfold orthogonalize
    rw [if_pos (by rw [hp1, Nat.mul_one])]
  · intro h0 r
    by_cases hg : n * p = n
    · unfold orthogonalize
      rw [if_pos hg]
    · rw [ortho_col_eq_upto pinv X hg ⟨0, h0⟩ r]
      rfl
  · intro i h1
    refine ⟨fun j hj => ortho_cols_orthogonal pinv X hpen i j h1 hj, ?_⟩
    by_cases hg : n * p = n
    · have hp2 : 2 ≤ p := by have := i.isLt; omega
      have hn0 : n = 0 := by
        rcases Nat.eq_zero_or_pos n with h | h
        · exact h
        · have hp1 : p = 1 := Nat.eq_of_mul_eq_mul_left h
            (by rw [hg, Nat.mul_one] : n * p = n * 1)
          omega
      subst hn0
      exact ⟨0, fun r => r.elim0⟩
    · obtain ⟨hA1, hA3⟩ := hpen i.val i.isLt h1
      refine ⟨(pinv i.val (leadCols (orthogonalize pinv X) i.val
          (Nat.le_of_lt i.isLt))).mulVec (fun r => X r i), fun r => ?_⟩
      have hproj := (pinv_proj
        (leadCols (orthogonalize pinv X) i.val (Nat.le_of_lt i.isLt))
        (pinv i.val (leadCols (orthogonalize pinv X) i.val (Nat.le_of_lt i.isLt)))
        (fun r => X r i) hA1 hA3).2
      rw [ortho_col_formula pinv X hg i h1 r]
      congr 1
      rw [show Matrix.vecMul (fun r' => X r' i)
          (leadCols (orthogonalize pinv X) i.val (Nat.le_of_lt i.isLt) *
            pinv i.val (leadCols (orthogonalize pinv X) i.val (Nat.le_of_lt i.isLt))) r =
          (leadCols (orthogonalize pinv X) i.val (Nat.le_of_lt i.isLt)).mulVec
            ((pinv i.val (leadCols (orthogonalize pinv X) i.val
              (Nat.le_of_lt i.isLt))).mulVec (fun r' => X r' i)) r from
        congrFun hproj r]
      rw [show (leadCols (orthogonalize pinv X) i.val (Nat.le_of_lt i.isLt)).mulVec
          ((pinv i.val (leadCols (orthogonalize pinv X) i.val
            (Nat.le_of_lt i.isLt))).mulVec (fun r' => X r' i)) r =
          ∑ c : Fin i.val,
            leadCols (orthogonalize pinv X) i.val (Nat.le_of_lt i.isLt) r c *
              (pinv i.val (leadCols (orthogonalize pinv X) i.val
                (Nat.le_of_lt i.isLt))).mulVec (fun r' => X r' i) c from rfl]
      apply Finset.sum_congr rfl
      intro c _
      rw [mul_comm]
      rfl

/-- C1 witness: a concrete two-column matrix with a concrete pseudoinverse
assignment; the first column stays, the second becomes orthogonal to it by
subtracting a multiple of it. -/
theorem C1_witness :
    (∀ i : ℕ, (hi : i < 2) → 1 ≤ i →
      penroseAt (fun _ A => Matrix.transpose A)
        (orthogonalize (fun _ A => Matrix.transpose A)
          (fun (r : Fin 2) (c : Fin 2) => if c.val = 0 then (if r.val = 0 then 1 else 0)
            else 1)) i (Nat.le_of_lt hi)) ∧
    (((2 : ℕ) = 1 → orthogonalize (fun _ A => Matrix.transpose A)
        (fun (r : Fin 2) (c : Fin 2) => if c.val = 0 then (if r.val = 0 then 1 else 0)
          else 1) =
        (fun (r : Fin 2) (c : Fin 2) => if c.val = 0 then (if r.val = 0 then 1 else 0)
          else 1)) ∧
      (∀ h0 : 0 < 2, ∀ r, orthogonalize (fun _ A => Matrix.transpose A)
          (fun (r : Fin 2) (c : Fin 2) => if c.val = 0 then (if r.val = 0 then 1 else 0)
            else 1) r ⟨0, h0⟩ =
          (fun (r : Fin 2) (c : Fin 2) => if c.val = 0 then (if r.val = 0 then 1 else 0)
            else 1) r ⟨0, h0⟩) ∧
      ∀ i : Fin 2, 1 ≤ i.val →
        (∀ j : Fin 2, j.val < i.val →
          Matrix.dotProduct
            (fun r => orthogonalize (fun _ A => Matrix.transpose A)
              (fun (r : Fin 2) (c : Fin 2) => if c.val = 0 then (if r.val = 0 then 1 else 0)
                else 1) r i)
            (fun r => orthogonalize (fun _ A => Matrix.transpose A)
              (fun (r : Fin 2) (c : Fin 2) => if c.val = 0 then (if r.val = 0 then 1 else 0)
                else 1) r j) = 0) ∧
        ∃ coef : Fin i.val → ℚ, ∀ r,
          orthogonalize (fun _ A => Matrix.transpose A)
            (fun (r : Fin 2) (c : Fin 2) => if c.val = 0 then (if r.val = 0 then 1 else 0)
              else 1) r i =
            (fun (r : Fin 2) (c : Fin 2) => if c.val = 0 then (if r.val = 0 then 1 else 0)
              else 1) r i - ∑ c : Fin i.val, coef c *
              orthogonalize (fun _ A => Matrix.transpose A)
                (fun (r : Fin 2) (c : Fin 2) => if c.val = 0 then (if r.val = 0 then 1 else 0)
                  else 1) r ⟨c.val, Nat.lt_trans c.isLt i.isLt⟩) :=
  ⟨by with_unfolding_all decide,
    C1_orthogonalize_least_squares (fun _ A => Matrix.transpose A) _
      (by with_unfolding_all decide)⟩

/-- C6: the orthogonalizer is idempotent: applying it to its own output (in
exact arithmetic, with pinv satisfying the Penrose identities at the
matrices it is applied to) changes nothing. -/
theorem C6_orthogonalize_idempotent {n p : ℕ}
    (pinv : (i : ℕ) → Matrix (Fin n) (Fin i) ℚ → Matrix (Fin i) (Fin n) ℚ)
    (X : Matrix (Fin n) (Fin p) ℚ)
    (hpen : ∀ i : ℕ, (hi : i < p) → 1 ≤ i →
      penroseAt pinv (orthogonalize pinv X) i (Nat.le_of_lt hi)) :
    orthogonalize pinv (orthogonalize pinv X) = orthogonalize pinv X := by
  by_cases hg : n * p = n
  · have h1 : orthogonalize pinv X = X := by
      unfold orthogonalize
      rw [if_pos hg]
    rw [h1]
    exact h1
  · have hdef : ∀ M : Matrix (Fin n) (Fin p) ℚ,
        orthogonalize pinv M = orthoUpto pinv M (p - 1) := by
      intro M
      unfold orthogonalize
      rw [if_neg hg]
    have horth := ortho_cols_orthogonal pinv X hpen
    have hfix : ∀ k, k ≤ p - 1 →
        orthoUpto pinv (orthogonalize pinv X) k = orthogonalize pinv X := by
      intro k
      induction k with
      | zero => intro _; rfl
      | succ k ih =>
        intro hk
        have hklt : k + 1 < p := by
          rcases Nat.eq_zero_or_pos p with h | h
          · omega
          · omega
        rw [orthoUpto_succ, ih (by omega)]
        funext r c
        rw [orthoStep]
        rw [dif_pos hklt]
        by_cases hc : c = ⟨k + 1, hklt⟩
        · rw [if_pos hc]
          have hva : Matrix.vecMul
              (fun r' => orthogonalize pinv X r' ⟨k + 1, hklt⟩)
              (leadCols (orthogonalize pinv X) (k + 1) (Nat.le_of_lt hklt)) = 0 := by
            funext j
            have hj := j.isLt
            exact horth ⟨k + 1, hklt⟩ ⟨j.val, by omega⟩ (Nat.le_add_left 1 k) j.isLt
          rw [show Matrix.vecMul
              (fun r' => orthogonalize pinv X r' ⟨k + 1, hklt⟩)
              (leadCols (orthogonalize pinv X) (k + 1) (Nat.le_of_lt hklt) *
                pinv (k + 1) (leadCols (orthogonalize pinv X) (k + 1)
                  (Nat.le_of_lt hklt))) = 0 from by
            rw [← Matrix.vecMul_vecMul, hva, Matrix.zero_vecMul]]
          rw [hc]
          simp
        · rw [if_neg hc]
    rw [hdef (orthogonalize pinv X)]
    exact hfix (p - 1) (le_refl _)

/-- C6 witness: idempotence on the concrete matrix of the C1 witness. -/
theorem C6_witness :
    (∀ i : ℕ, (hi : i < 2) → 1 ≤ i →
      penroseAt (fun _ A => Matrix.transpose A)
        (orthogonalize (fun _ A => Matrix.transpose A)
          (fun (r : Fin 2) (c : Fin 2) => if c.val = 0 then (if r.val = 1 then 1 else 0)
            else 2)) i (Nat.le_of_lt hi)) ∧
    orthogonalize (fun _ A => Matrix.transpose A)
      (orthogonalize (fun _ A => Matrix.transpose A)
        (fun (r : Fin 2) (c : Fin 2) => if c.val = 0 then (if r.val = 1 then 1 else 0)
          else 2)) =
      orthogonalize (fun _ A => Matrix.transpose A)
        (fun (r : Fin 2) (c : Fin 2) => if c.val = 0 then (if r.val = 1 then 1 else 0)
          else 2) :=
  ⟨by with_unfolding_all decide,
    C6_orthogonalize_idempotent (fun _ A => Matrix.transpose A) _
      (by with_unfolding_all decide)⟩

set_option maxRecDepth 8000 in
/-- C9 counterexample: a call with the negative oversampling factor -1
returns a result, so the claim that every call with oversampling <= 0 fails
is false.  With frame times [-2, -1] and min_onset 1 the high-resolution
grid is the two descending points [-1, -2]; interp1d sorts them, the frame
times lie inside the covered range, and the pipeline completes. -/
theorem C9_negative_oversampling_counterexample :
    computeRegressor gpdf0 pinv0 [] "spm" [-2, -1] "cond" (-1) none 1 =
      .ok ([[0, 0]], some ["cond"]) := by
  with_unfolding_all rfl

end Nistats
